import Mathlib

/-!
# Verification of the symmetric-cipher core (TEA-CBC, RC4, Vernam, LCG)

Shallow embedding of the cipher subsystem of the repository:
bytes are `Nat` values below 256, byte strings are `List Nat`, 32-bit machine
arithmetic is `Nat` arithmetic reduced modulo `2^32` (the source applies
`& 0xFFFFFFFF`, which on a nonnegative Python int is exactly `% 2^32`), and
fallible operations (functions that `raise ValueError`) return
`Except String _`.
-/

namespace Ucheba

/-- `2^32`; the source masks with `MASK32 = 0xFFFFFFFF`, and `x & MASK32`
equals `x % 2^32` for the nonnegative values that occur. -/
def M32 : Nat := 4294967296

/-- TEA round constant, `DELTA = 0x9E3779B9` in the source. -/
def DELTA : Nat := 0x9E3779B9

/-- Python `(a - b) & MASK32` for `0 ≤ a < 2^32` and arbitrary `b ≥ 0`:
subtraction modulo `2^32`, embedded into `Nat` by adding the modulus before
subtracting. -/
def sub32 (a b : Nat) : Nat := (a % M32 + M32 - b % M32) % M32

/-- One encryption round of the 32-round loop in `tea_encrypt_block`
(`v0` updated first, then `v1` from the updated `v0`), at accumulator
value `s`. -/
def encRound (k0 k1 k2 k3 s : Nat) (v : Nat × Nat) : Nat × Nat :=
  let v0 := (v.1 + (((v.2 <<< 4) + k0) ^^^ (v.2 + s) ^^^ ((v.2 >>> 5) + k1))) % M32
  let v1 := (v.2 + (((v0 <<< 4) + k2) ^^^ (v0 + s) ^^^ ((v0 >>> 5) + k3))) % M32
  (v0, v1)

/-- One decryption round of the 32-round loop in `tea_decrypt_block`
(`v1` updated first, then `v0`), at accumulator value `s`. -/
def decRound (k0 k1 k2 k3 s : Nat) (v : Nat × Nat) : Nat × Nat :=
  let v1 := sub32 v.2 (((v.1 <<< 4) + k2) ^^^ (v.1 + s) ^^^ ((v.1 >>> 5) + k3))
  let v0 := sub32 v.1 (((v1 <<< 4) + k0) ^^^ (v1 + s) ^^^ ((v1 >>> 5) + k1))
  (v0, v1)

/-- The encryption loop: `n` iterations of `s = (s + DELTA) % 2^32` followed
by the round at the new `s` (the source runs it with `n = 32`, `s = 0`). -/
def encRounds : Nat → Nat → Nat → Nat → Nat → Nat → Nat × Nat → Nat × Nat
  | 0, _, _, _, _, _, v => v
  | n + 1, k0, k1, k2, k3, s, v =>
    let s' := (s + DELTA) % M32
    encRounds n k0 k1 k2 k3 s' (encRound k0 k1 k2 k3 s' v)

/-- The decryption loop: `n` iterations of the round at the current `s`
followed by `s = (s - DELTA) & MASK32` (the source runs it with `n = 32`,
`s = (DELTA * 32) & MASK32`). -/
def decRounds : Nat → Nat → Nat → Nat → Nat → Nat → Nat × Nat → Nat × Nat
  | 0, _, _, _, _, _, v => v
  | n + 1, k0, k1, k2, k3, s, v =>
    decRounds n k0 k1 k2 k3 (sub32 s DELTA) (decRound k0 k1 k2 k3 s v)

lemma sub32_add (a x : Nat) : sub32 ((a + x) % M32) x = a % M32 := by
  simp only [sub32, M32]
  omega

lemma sub32_add_of_lt (a x : Nat) (h : a < M32) : sub32 ((a + x) % M32) x = a := by
  rw [sub32_add, Nat.mod_eq_of_lt h]

lemma encRound_lt (k0 k1 k2 k3 s : Nat) (v : Nat × Nat) :
    (encRound k0 k1 k2 k3 s v).1 < M32 ∧ (encRound k0 k1 k2 k3 s v).2 < M32 := by
  constructor <;> exact Nat.mod_lt _ (by simp [M32])

lemma decRound_encRound (k0 k1 k2 k3 s : Nat) (v : Nat × Nat)
    (h0 : v.1 < M32) (h1 : v.2 < M32) :
    decRound k0 k1 k2 k3 s (encRound k0 k1 k2 k3 s v) = v := by
  obtain ⟨v0, v1⟩ := v
  simp only [encRound, decRound]
  simp only at h0 h1
  rw [sub32_add_of_lt _ _ h1, sub32_add_of_lt _ _ h0]

lemma encRounds_lt (n k0 k1 k2 k3 s : Nat) (v : Nat × Nat)
    (h0 : v.1 < M32) (h1 : v.2 < M32) :
    (encRounds n k0 k1 k2 k3 s v).1 < M32 ∧ (encRounds n k0 k1 k2 k3 s v).2 < M32 := by
  induction n generalizing s v with
  | zero => exact ⟨h0, h1⟩
  | succ n ih =>
    simp only [encRounds]
    exact ih _ _ (encRound_lt _ _ _ _ _ _).1 (encRound_lt _ _ _ _ _ _).2

/-- Peeling the outermost round: after `n+1` iterations starting at
accumulator `s`, the last round applied used accumulator
`(s + (n+1) * DELTA) % 2^32`. -/
lemma encRounds_succ_outer (n k0 k1 k2 k3 : Nat) :
    ∀ s v, encRounds (n + 1) k0 k1 k2 k3 s v =
      encRound k0 k1 k2 k3 ((s + (n + 1) * DELTA) % M32)
        (encRounds n k0 k1 k2 k3 s v) := by
  induction n with
  | zero =>
    intro s v
    simp only [encRounds]
    have : (s + DELTA) % M32 = (s + 1 * DELTA) % M32 := by
      rw [Nat.one_mul]
    rw [this]
  | succ n ih =>
    intro s v
    show encRounds (n + 1) k0 k1 k2 k3 ((s + DELTA) % M32)
        (encRound k0 k1 k2 k3 ((s + DELTA) % M32) v) = _
    rw [ih]
    have : ((s + DELTA) % M32 + (n + 1) * DELTA) % M32
        = (s + (n + 1 + 1) * DELTA) % M32 := by
      simp only [DELTA, M32]; omega
    rw [this]
    rfl

/-- The decryption loop started at accumulator `(s + n*DELTA) % 2^32`
undoes `n` encryption rounds started at accumulator `s`. -/
lemma decRounds_encRounds (n k0 k1 k2 k3 : Nat) :
    ∀ s v, v.1 < M32 → v.2 < M32 →
      decRounds n k0 k1 k2 k3 ((s + n * DELTA) % M32)
        (encRounds n k0 k1 k2 k3 s v) = v := by
  induction n with
  | zero =>
    intro s v _ _
    rfl
  | succ n ih =>
    intro s v h0 h1
    rw [encRounds_succ_outer]
    show decRounds n k0 k1 k2 k3
        (sub32 ((s + (n + 1) * DELTA) % M32) DELTA)
        (decRound k0 k1 k2 k3 ((s + (n + 1) * DELTA) % M32)
          (encRound k0 k1 k2 k3 ((s + (n + 1) * DELTA) % M32)
            (encRounds n k0 k1 k2 k3 s v))) = v
    rw [decRound_encRound _ _ _ _ _ _
      (encRounds_lt n k0 k1 k2 k3 s v h0 h1).1
      (encRounds_lt n k0 k1 k2 k3 s v h0 h1).2]
    have : sub32 ((s + (n + 1) * DELTA) % M32) DELTA = (s + n * DELTA) % M32 := by
      simp only [sub32, DELTA, M32]; omega
    rw [this]
    exact ih s v h0 h1

/-- Big-endian 32-bit word from four bytes (`struct.unpack(">I", ...)`). -/
def word32 (a b c d : Nat) : Nat := ((a * 256 + b) * 256 + c) * 256 + d

/-- Big-endian bytes of a 32-bit word (`struct.pack(">I", w)`). -/
def bytes4 (w : Nat) : List Nat :=
  [w / 16777216 % 256, w / 65536 % 256, w / 256 % 256, w % 256]

/-- `struct.unpack(">2I", block8)`: two big-endian 32-bit words.  The source
raises `struct.error` on lengths other than 8; the embedding is only used
(and only reasoned about) on 8-byte inputs. -/
def unpack2x32 : List Nat → Nat × Nat
  | [a0, a1, a2, a3, a4, a5, a6, a7] => (word32 a0 a1 a2 a3, word32 a4 a5 a6 a7)
  | _ => (0, 0)

/-- `struct.unpack(">4I", key16)`: four big-endian 32-bit words; only used on
16-byte inputs (other lengths raise `struct.error` in the source). -/
def unpack4x32 : List Nat → Nat × Nat × Nat × Nat
  | [a0, a1, a2, a3, a4, a5, a6, a7, a8, a9, a10, a11, a12, a13, a14, a15] =>
    (word32 a0 a1 a2 a3, word32 a4 a5 a6 a7, word32 a8 a9 a10 a11, word32 a12 a13 a14 a15)
  | _ => (0, 0, 0, 0)

/-- `tea_encrypt_block(block8, key16)`: unpack big-endian, 32 rounds starting
from `sum = 0`, repack big-endian. -/
def tea_encrypt_block (block8 key16 : List Nat) : List Nat :=
  let vv := unpack2x32 block8
  let kk := unpack4x32 key16
  let r := encRounds 32 kk.1 kk.2.1 kk.2.2.1 kk.2.2.2 0 vv
  bytes4 r.1 ++ bytes4 r.2

/-- `tea_decrypt_block(block8, key16)`: unpack big-endian, 32 rounds starting
from `sum = (DELTA * 32) & MASK32`, repack big-endian. -/
def tea_decrypt_block (block8 key16 : List Nat) : List Nat :=
  let vv := unpack2x32 block8
  let kk := unpack4x32 key16
  let r := decRounds 32 kk.1 kk.2.1 kk.2.2.1 kk.2.2.2 (DELTA * 32 % M32) vv
  bytes4 r.1 ++ bytes4 r.2

lemma list_len8 (l : List Nat) (h : l.length = 8) :
    ∃ a0 a1 a2 a3 a4 a5 a6 a7, l = [a0, a1, a2, a3, a4, a5, a6, a7] := by
  rcases l with
    _ | ⟨b0, _ | ⟨b1, _ | ⟨b2, _ | ⟨b3, _ | ⟨b4, _ | ⟨b5,
      _ | ⟨b6, _ | ⟨b7, _ | ⟨b8, t⟩⟩⟩⟩⟩⟩⟩⟩⟩ <;>
  first
  | exact ⟨b0, b1, b2, b3, b4, b5, b6, b7, rfl⟩
  | (simp only [List.length_cons, List.length_nil] at h; omega)
lemma list_len16 (l : List Nat) (h : l.length = 16) :
    ∃ a0 a1 a2 a3 a4 a5 a6 a7 a8 a9 a10 a11 a12 a13 a14 a15,
      l = [a0, a1, a2, a3, a4, a5, a6, a7, a8, a9, a10, a11, a12, a13, a14, a15] := by
  rcases l with
    _ | ⟨b0, _ | ⟨b1, _ | ⟨b2, _ | ⟨b3, _ | ⟨b4, _ | ⟨b5, _ | ⟨b6, _ | ⟨b7,
      _ | ⟨b8, _ | ⟨b9, _ | ⟨b10, _ | ⟨b11, _ | ⟨b12, _ | ⟨b13, _ | ⟨b14,
        _ | ⟨b15, _ | ⟨b16, t⟩⟩⟩⟩⟩⟩⟩⟩⟩⟩⟩⟩⟩⟩⟩⟩⟩ <;>
  first
  | exact ⟨b0, b1, b2, b3, b4, b5, b6, b7, b8, b9, b10, b11, b12, b13, b14, b15, rfl⟩
  | (simp only [List.length_cons, List.length_nil] at h; omega)

lemma word32_lt (a b c d : Nat) (ha : a < 256) (hb : b < 256) (hc : c < 256)
    (hd : d < 256) : word32 a b c d < M32 := by
  simp only [word32, M32]; omega

lemma unpack2x32_bytes4 (x y : Nat) (hx : x < M32) (hy : y < M32) :
    unpack2x32 (bytes4 x ++ bytes4 y) = (x, y) := by
  simp only [bytes4, List.cons_append, List.nil_append, unpack2x32, word32, M32] at *
  rw [Prod.mk.injEq]
  constructor <;> omega

lemma bytes4_word32 (a b c d : Nat) (ha : a < 256) (hb : b < 256) (hc : c < 256)
    (hd : d < 256) : bytes4 (word32 a b c d) = [a, b, c, d] := by
  simp only [bytes4, word32]
  have e1 : (((a * 256 + b) * 256 + c) * 256 + d) / 16777216 % 256 = a := by omega
  have e2 : (((a * 256 + b) * 256 + c) * 256 + d) / 65536 % 256 = b := by omega
  have e3 : (((a * 256 + b) * 256 + c) * 256 + d) / 256 % 256 = c := by omega
  have e4 : (((a * 256 + b) * 256 + c) * 256 + d) % 256 = d := by omega
  rw [e1, e2, e3, e4]

/-- Core TEA block round-trip, shared helper. -/
lemma tea_block_roundtrip_aux (b k : List Nat) (hb8 : b.length = 8)
    (hb : ∀ x ∈ b, x < 256) (hk16 : k.length = 16) :
    tea_decrypt_block (tea_encrypt_block b k) k = b := by
  obtain ⟨a0, a1, a2, a3, a4, a5, a6, a7, rfl⟩ := list_len8 b hb8
  obtain ⟨c0, c1, c2, c3, c4, c5, c6, c7, c8, c9, c10, c11, c12, c13, c14, c15, rfl⟩ :=
    list_len16 k hk16
  simp only [List.mem_cons, List.not_mem_nil, or_false, forall_eq_or_imp, forall_eq] at hb
  obtain ⟨h0, h1, h2, h3, h4, h5, h6, h7⟩ := hb
  have hvv : unpack2x32 [a0, a1, a2, a3, a4, a5, a6, a7]
      = (word32 a0 a1 a2 a3, word32 a4 a5 a6 a7) := rfl
  simp only [tea_encrypt_block, tea_decrypt_block, hvv]
  have hv0 : word32 a0 a1 a2 a3 < M32 := word32_lt _ _ _ _ h0 h1 h2 h3
  have hv1 : word32 a4 a5 a6 a7 < M32 := word32_lt _ _ _ _ h4 h5 h6 h7
  set kk := unpack4x32 [c0, c1, c2, c3, c4, c5, c6, c7, c8, c9, c10, c11, c12, c13, c14, c15]
    with hkk
  set v : Nat × Nat := (word32 a0 a1 a2 a3, word32 a4 a5 a6 a7) with hv
  have hrl := encRounds_lt 32 kk.1 kk.2.1 kk.2.2.1 kk.2.2.2 0 v hv0 hv1
  rw [unpack2x32_bytes4 _ _ hrl.1 hrl.2]
  have hsum : DELTA * 32 % M32 = (0 + 32 * DELTA) % M32 := by
    rw [Nat.zero_add, Nat.mul_comm]
  rw [Prod.mk.eta, hsum, decRounds_encRounds 32 kk.1 kk.2.1 kk.2.2.1 kk.2.2.2 0 v hv0 hv1]
  rw [hv]
  show bytes4 (word32 a0 a1 a2 a3) ++ bytes4 (word32 a4 a5 a6 a7) = _
  rw [bytes4_word32 _ _ _ _ h0 h1 h2 h3, bytes4_word32 _ _ _ _ h4 h5 h6 h7]
  rfl

/-- C1: for every 16-byte key `k` and 8-byte block `b`,
`tea_decrypt_block(tea_encrypt_block(b, k), k) = b`: the 32-round decrypt
loop starting from `sum = (DELTA*32) mod 2^32` and subtracting is the exact
inverse of the 32-round encrypt loop. -/
theorem tea_block_roundtrip (b k : List Nat) (hb8 : b.length = 8)
    (hb : ∀ x ∈ b, x < 256) (hk16 : k.length = 16) (hk : ∀ x ∈ k, x < 256) :
    tea_decrypt_block (tea_encrypt_block b k) k = b :=
  tea_block_roundtrip_aux b k hb8 hb hk16

theorem tea_block_roundtrip_witness :
    tea_decrypt_block
      (tea_encrypt_block [0, 1, 2, 3, 4, 5, 6, 7]
        [10, 11, 12, 13, 14, 15, 16, 17, 18, 19, 20, 21, 22, 23, 24, 25])
      [10, 11, 12, 13, 14, 15, 16, 17, 18, 19, 20, 21, 22, 23, 24, 25]
      = [0, 1, 2, 3, 4, 5, 6, 7] :=
  tea_block_roundtrip [0, 1, 2, 3, 4, 5, 6, 7]
    [10, 11, 12, 13, 14, 15, 16, 17, 18, 19, 20, 21, 22, 23, 24, 25]
    (by decide) (by decide) (by decide) (by decide)

/-- C3: `tea_encrypt_block` on the all-zero 8-byte block under the all-zero
16-byte key yields the reference 32-round TEA ciphertext
`0x41EA3A0A94BAA940` (big-endian unpacking, `DELTA = 0x9E3779B9`, `sum`
starting at 0, all arithmetic modulo `2^32`). -/
theorem tea_zero_vector :
    tea_encrypt_block (List.replicate 8 0) (List.replicate 16 0)
      = [0x41, 0xEA, 0x3A, 0x0A, 0x94, 0xBA, 0xA9, 0x40] := by
  decide

/-- `pkcs7_pad(data, block_size)`: append `block_size - len(data) % block_size`
bytes, each equal to that count. -/
def pkcs7_pad (data : List Nat) (block_size : Nat) : List Nat :=
  let pad_len := block_size - data.length % block_size
  data ++ List.replicate pad_len pad_len

/-- `pkcs7_unpad(data, block_size)`: reject empty data or length not a
multiple of the block size ("InvalidLength", a `ValueError` in the source),
read the last byte as the pad length, reject it outside `[1, block_size]` or
a tail not consisting of `pad_len` copies of `pad_len` ("InvalidPadding",
also a `ValueError`), otherwise strip the tail. -/
def pkcs7_unpad (data : List Nat) (block_size : Nat) : Except String (List Nat) :=
  if data.length = 0 ∨ data.length % block_size ≠ 0 then
    Except.error "InvalidLength"
  else
    let pad_len := data.getLastD 0
    if pad_len < 1 ∨ pad_len > block_size then Except.error "InvalidPadding"
    else if data.drop (data.length - pad_len) ≠ List.replicate pad_len pad_len then
      Except.error "InvalidPadding"
    else Except.ok (data.take (data.length - pad_len))

lemma getLastD_append_replicate (l : List Nat) (p x : Nat) (hp : 0 < p) :
    (l ++ List.replicate p x).getLastD 0 = x := by
  obtain ⟨q, rfl⟩ : ∃ q, p = q + 1 := ⟨p - 1, by omega⟩
  rw [List.replicate_succ', ← List.append_assoc, List.getLastD_concat]

/-- Shared helper: unpadding after padding recovers the data exactly. -/
lemma pkcs7_unpad_pad (data : List Nat) :
    pkcs7_unpad (pkcs7_pad data 8) 8 = Except.ok data := by
  have hmod : data.length % 8 < 8 := Nat.mod_lt _ (by norm_num)
  set p := 8 - data.length % 8 with hp
  have hp1 : 0 < p := by omega
  have hlast : (data ++ List.replicate p p).getLastD 0 = p :=
    getLastD_append_replicate _ _ _ hp1
  have hidx : data.length + p - p = data.length := by omega
  show pkcs7_unpad (data ++ List.replicate p p) 8 = Except.ok data
  simp only [pkcs7_unpad, List.length_append, List.length_replicate, hlast, hidx]
  rw [if_neg (by omega)]
  rw [if_neg (by omega)]
  rw [if_neg (by rw [List.drop_left]; simp)]
  rw [List.take_left]

/-- C5: `pkcs7_unpad (pkcs7_pad data 8) 8 = data` for every byte sequence;
`pkcs7_pad` appends `8 - len % 8` bytes (between 1 and 8, each equal to the
count), the padded length is a multiple of 8, and data whose length is
already a multiple of 8 gets a full extra block of eight bytes of value 8. -/
theorem pkcs7_pad_spec (data : List Nat) :
    pkcs7_unpad (pkcs7_pad data 8) 8 = Except.ok data
  ∧ pkcs7_pad data 8
      = data ++ List.replicate (8 - data.length % 8) (8 - data.length % 8)
  ∧ 1 ≤ 8 - data.length % 8 ∧ 8 - data.length % 8 ≤ 8
  ∧ (pkcs7_pad data 8).length % 8 = 0
  ∧ (data.length % 8 = 0 → pkcs7_pad data 8 = data ++ List.replicate 8 8) := by
  refine ⟨pkcs7_unpad_pad data, rfl, by omega, by omega, ?_, ?_⟩
  · simp only [pkcs7_pad, List.length_append, List.length_replicate]
    omega
  · intro h
    simp only [pkcs7_pad, h, Nat.sub_zero]

theorem pkcs7_pad_spec_witness :
    pkcs7_pad ([] : List Nat) 8 = [] ++ List.replicate 8 8
  ∧ pkcs7_unpad (pkcs7_pad ([] : List Nat) 8) 8 = Except.ok [] :=
  ⟨(pkcs7_pad_spec []).2.2.2.2.2 (by decide), (pkcs7_pad_spec []).1⟩

/-- C6: take any validly padded sequence `s` and overwrite one byte of its
padding tail; if the result fails the pad-consistency condition (last byte
`p'` outside `[1,8]`, or last `p'` bytes not all equal to `p'`), then
`pkcs7_unpad` rejects it with `InvalidPadding`. -/
theorem pkcs7_unpad_reject (s d : List Nat) (i v : Nat)
    (hvalid : pkcs7_unpad s 8 = Except.ok d)
    (hi1 : s.length - s.getLastD 0 ≤ i) (hi2 : i < s.length)
    (hbad : ¬(1 ≤ (s.set i v).getLastD 0 ∧ (s.set i v).getLastD 0 ≤ 8 ∧
        (s.set i v).drop ((s.set i v).length - (s.set i v).getLastD 0)
          = List.replicate ((s.set i v).getLastD 0) ((s.set i v).getLastD 0))) :
    pkcs7_unpad (s.set i v) 8 = Except.error "InvalidPadding" := by
  have hs0 : s.length ≠ 0 ∧ s.length % 8 = 0 := by
    by_cases hc : s.length = 0 ∨ s.length % 8 ≠ 0
    · rw [pkcs7_unpad, if_pos hc] at hvalid
      exact absurd hvalid (by simp)
    · push_neg at hc
      exact hc
  simp only [List.length_set] at hbad ⊢
  rw [pkcs7_unpad]
  simp only [List.length_set]
  rw [if_neg (by omega)]
  by_cases h1 : (s.set i v).getLastD 0 < 1 ∨ (s.set i v).getLastD 0 > 8
  · rw [if_pos h1]
  · rw [if_neg h1]
    push_neg at h1
    have h2 : (s.set i v).drop (s.length - (s.set i v).getLastD 0)
        ≠ List.replicate ((s.set i v).getLastD 0) ((s.set i v).getLastD 0) :=
      fun heq => hbad ⟨h1.1, h1.2, heq⟩
    rw [if_pos h2]

theorem pkcs7_unpad_reject_witness :
    pkcs7_unpad ((List.replicate 8 8).set 0 7) 8 = Except.error "InvalidPadding" :=
  pkcs7_unpad_reject (List.replicate 8 8) [] 0 7 (by rfl) (by decide) (by decide)
    (by decide)

/-- `xor_bytes(a, b)`: byte-wise XOR, truncating to the shorter argument
(Python `zip`). -/
def xor_bytes (a b : List Nat) : List Nat := List.zipWith (fun x y => x ^^^ y) a b

/-- `derive_tea_key_16(passphrase)`: the source computes
`sha256(passphrase.encode()).digest()[:16]`.  SHA-256 is a library
primitive, not repository code, so the digest function is passed as an
abstract parameter; the embedding keeps the truncation to 16 bytes. -/
def derive_tea_key_16 (sha256 : List Nat → List Nat) (passphrase : List Nat) : List Nat :=
  (sha256 passphrase).take 16

/-- The `for i in range(0, len(data), 8)` slicing loop: successive 8-byte
chunks of a byte string. -/
def chunks8 (l : List Nat) : List (List Nat) :=
  if h : l = [] then []
  else l.take 8 :: chunks8 (l.drop 8)
termination_by l.length
decreasing_by
  simp only [List.length_drop]
  have := List.length_pos.mpr h
  omega

/-- The CBC encryption loop of `encrypt_file_cbc`: each block is XORed with
the previous ciphertext block (initially the IV) and TEA-encrypted. -/
def cbc_enc (key16 : List Nat) : List Nat → List (List Nat) → List (List Nat)
  | _, [] => []
  | prev, b :: bs =>
    let c := tea_encrypt_block (xor_bytes b prev) key16
    c :: cbc_enc key16 c bs

/-- The CBC decryption loop of `decrypt_file_cbc`: each ciphertext block is
TEA-decrypted and XORed with the previous ciphertext block (initially the
IV). -/
def cbc_dec (key16 : List Nat) : List Nat → List (List Nat) → List (List Nat)
  | _, [] => []
  | prev, c :: cs =>
    let x := tea_decrypt_block c key16
    xor_bytes x prev :: cbc_dec key16 c cs

/-- `encrypt_file_cbc`: derive the key, pad the plaintext, CBC-encrypt, and
write `IV || ciphertext`.  The IV (8 random bytes in the source) is a
parameter. -/
def encrypt_file_cbc (sha256 : List Nat → List Nat) (passphrase iv data : List Nat) :
    List Nat :=
  let key := derive_tea_key_16 sha256 passphrase
  let padded := pkcs7_pad data 8
  iv ++ (cbc_enc key iv (chunks8 padded)).flatten

/-- `decrypt_file_cbc`: reject inputs shorter than 8 bytes or of length not
a multiple of 8 ("CorruptCiphertext", a `ValueError` in the source), split
off the IV, CBC-decrypt, and unpad. -/
def decrypt_file_cbc (sha256 : List Nat → List Nat) (passphrase data : List Nat) :
    Except String (List Nat) :=
  let key := derive_tea_key_16 sha256 passphrase
  if data.length < 8 ∨ data.length % 8 ≠ 0 then Except.error "CorruptCiphertext"
  else
    let iv := data.take 8
    let ciphertext := data.drop 8
    pkcs7_unpad ((cbc_dec key iv (chunks8 ciphertext)).flatten) 8

/-- The writes `decrypt_file_cbc` performs on the output file.  In the
source, `open(out_path, "wb")` and the single `write` happen strictly after
the length check and `pkcs7_unpad` have succeeded, so a failing run writes
nothing; the trace is therefore the plaintext on success and empty on
error. -/
def decrypt_file_cbc_writes (sha256 : List Nat → List Nat) (passphrase data : List Nat) :
    List (List Nat) :=
  match decrypt_file_cbc sha256 passphrase data with
  | Except.ok p => [p]
  | Except.error _ => []

lemma chunks8_nil : chunks8 [] = [] := by
  rw [chunks8]
  rfl

lemma chunks8_cons (l : List Nat) (h : l ≠ []) :
    chunks8 l = l.take 8 :: chunks8 (l.drop 8) := by
  rw [chunks8, dif_neg h]

lemma chunks8_all_len8 (l : List Nat) (hl : l.length % 8 = 0) :
    ∀ b ∈ chunks8 l, b.length = 8 := by
  by_cases h : l = []
  · subst h; simp [chunks8_nil]
  · rw [chunks8_cons l h]
    have hpos := List.length_pos.mpr h
    intro b hb
    rcases List.mem_cons.mp hb with rfl | hb'
    · simp only [List.length_take]
      omega
    · exact chunks8_all_len8 (l.drop 8) (by simp only [List.length_drop]; omega) b hb'
termination_by l.length
decreasing_by
  simp only [List.length_drop]
  omega

lemma chunks8_flatten (l : List Nat) (hl : l.length % 8 = 0) :
    (chunks8 l).flatten = l := by
  by_cases h : l = []
  · subst h; simp [chunks8_nil]
  · rw [chunks8_cons l h]
    have hpos := List.length_pos.mpr h
    rw [List.flatten_cons,
      chunks8_flatten (l.drop 8) (by simp only [List.length_drop]; omega),
      List.take_append_drop]
termination_by l.length
decreasing_by
  simp only [List.length_drop]
  omega

lemma chunks8_mem_lt (l : List Nat) (hB : ∀ x ∈ l, x < 256) :
    ∀ b ∈ chunks8 l, ∀ x ∈ b, x < 256 := by
  by_cases h : l = []
  · subst h; simp [chunks8_nil]
  · rw [chunks8_cons l h]
    have hpos := List.length_pos.mpr h
    intro b hb
    rcases List.mem_cons.mp hb with rfl | hb'
    · exact fun x hx => hB x (List.mem_of_mem_take hx)
    · exact chunks8_mem_lt (l.drop 8)
        (fun x hx => hB x ((List.drop_sublist 8 l).subset hx)) b hb'
termination_by l.length
decreasing_by
  simp only [List.length_drop]
  omega

lemma chunks8_flatten_blocks (L : List (List Nat)) (h8 : ∀ b ∈ L, b.length = 8) :
    chunks8 L.flatten = L := by
  induction L with
  | nil => simp [chunks8_nil]
  | cons b bs ih =>
    have hb : b.length = 8 := h8 b (List.mem_cons_self b bs)
    have hbne : b ≠ [] := by
      intro hb'
      rw [hb'] at hb
      simp at hb
    have hne : b ++ bs.flatten ≠ [] := by
      intro he
      exact hbne (List.append_eq_nil.mp he).1
    rw [List.flatten_cons, chunks8_cons _ hne, List.take_left' hb, List.drop_left' hb,
      ih (fun c hc => h8 c (List.mem_cons_of_mem b hc))]

lemma tea_encrypt_block_length (b k : List Nat) : (tea_encrypt_block b k).length = 8 := by
  simp [tea_encrypt_block, bytes4]

lemma tea_encrypt_block_lt (b k : List Nat) : ∀ x ∈ tea_encrypt_block b k, x < 256 := by
  intro x hx
  simp only [tea_encrypt_block, bytes4, List.mem_append, List.mem_cons,
    List.not_mem_nil, or_false] at hx
  rcases hx with (rfl | rfl | rfl | rfl) | (rfl | rfl | rfl | rfl) <;> omega

lemma xor_bytes_length (a b : List Nat) :
    (xor_bytes a b).length = min a.length b.length := by
  simp [xor_bytes]

lemma xor_bytes_lt (a : List Nat) :
    ∀ b : List Nat, (∀ x ∈ a, x < 256) → (∀ x ∈ b, x < 256) →
      ∀ x ∈ xor_bytes a b, x < 256 := by
  induction a with
  | nil => simp [xor_bytes]
  | cons x xs ih =>
    intro b ha hb
    cases b with
    | nil => simp [xor_bytes]
    | cons y ys =>
      intro z hz
      simp only [xor_bytes, List.zipWith_cons_cons, List.mem_cons] at hz
      rcases hz with rfl | hz'
      · have h1 : x < 2 ^ 8 := by simpa using ha x (List.mem_cons_self x xs)
        have h2 : y < 2 ^ 8 := by simpa using hb y (List.mem_cons_self y ys)
        simpa using Nat.xor_lt_two_pow h1 h2
      · exact ih ys (fun u hu => ha u (List.mem_cons_of_mem x hu))
          (fun u hu => hb u (List.mem_cons_of_mem y hu)) z hz'

lemma xor_bytes_cancel (a : List Nat) :
    ∀ b : List Nat, a.length ≤ b.length → xor_bytes (xor_bytes a b) b = a := by
  induction a with
  | nil => simp [xor_bytes]
  | cons x xs ih =>
    intro b h
    cases b with
    | nil => simp at h
    | cons y ys =>
      simp only [xor_bytes, List.zipWith_cons_cons]
      rw [Nat.xor_assoc, Nat.xor_self, Nat.xor_zero]
      congr 1
      exact ih ys (by simpa using h)

lemma cbc_enc_all_len8 (key : List Nat) :
    ∀ (bs : List (List Nat)) (prev : List Nat), ∀ c ∈ cbc_enc key prev bs, c.length = 8 := by
  intro bs
  induction bs with
  | nil => intro prev c hc; simp [cbc_enc] at hc
  | cons b bs ih =>
    intro prev c hc
    simp only [cbc_enc] at hc
    rcases List.mem_cons.mp hc with rfl | h'
    · exact tea_encrypt_block_length _ _
    · exact ih _ c h'

lemma flatten_all8_length (L : List (List Nat)) (h : ∀ b ∈ L, b.length = 8) :
    L.flatten.length = 8 * L.length := by
  induction L with
  | nil => simp
  | cons b bs ih =>
    simp only [List.flatten_cons, List.length_append, List.length_cons]
    rw [h b (List.mem_cons_self b bs), ih (fun c hc => h c (List.mem_cons_of_mem b hc))]
    ring

/-- CBC decryption inverts CBC encryption block by block. -/
lemma cbc_dec_enc (key : List Nat) (hk : key.length = 16) :
    ∀ (bs : List (List Nat)) (prev : List Nat),
      prev.length = 8 → (∀ x ∈ prev, x < 256) →
      (∀ b ∈ bs, b.length = 8 ∧ ∀ x ∈ b, x < 256) →
      cbc_dec key prev (cbc_enc key prev bs) = bs := by
  intro bs
  induction bs with
  | nil => intro prev _ _ _; rfl
  | cons b bs ih =>
    intro prev hp8 hpB hbs
    obtain ⟨hb1, hb2⟩ := hbs b (List.mem_cons_self b bs)
    simp only [cbc_enc, cbc_dec]
    have hx8 : (xor_bytes b prev).length = 8 := by
      rw [xor_bytes_length, hb1, hp8]
      simp
    have hxB : ∀ y ∈ xor_bytes b prev, y < 256 := xor_bytes_lt _ _ hb2 hpB
    rw [tea_block_roundtrip_aux (xor_bytes b prev) key hx8 hxB hk,
      xor_bytes_cancel b prev (by omega)]
    congr 1
    exact ih (tea_encrypt_block (xor_bytes b prev) key)
      (tea_encrypt_block_length _ _) (tea_encrypt_block_lt _ _)
      (fun c hc => hbs c (List.mem_cons_of_mem b hc))

/-- C2: for every passphrase (through the abstract 32-byte digest), every
plaintext byte sequence (including the empty one) and every 8-byte IV,
TEA-CBC decryption of the TEA-CBC encryption returns the original
plaintext. -/
theorem cbc_roundtrip (sha256 : List Nat → List Nat) (passphrase iv data : List Nat)
    (hsha : 16 ≤ (sha256 passphrase).length)
    (hshaB : ∀ x ∈ sha256 passphrase, x < 256)
    (hiv8 : iv.length = 8) (hivB : ∀ x ∈ iv, x < 256)
    (hdataB : ∀ x ∈ data, x < 256) :
    decrypt_file_cbc sha256 passphrase (encrypt_file_cbc sha256 passphrase iv data)
      = Except.ok data := by
  set key := derive_tea_key_16 sha256 passphrase with hkey
  have hk16 : key.length = 16 := by
    rw [hkey, derive_tea_key_16, List.length_take]
    omega
  set padded := pkcs7_pad data 8 with hpad
  have hpadlen : padded.length % 8 = 0 := by
    rw [hpad]
    simp only [pkcs7_pad, List.length_append, List.length_replicate]
    omega
  have hpadB : ∀ x ∈ padded, x < 256 := by
    rw [hpad]
    simp only [pkcs7_pad]
    intro x hx
    rcases List.mem_append.mp hx with h | h
    · exact hdataB x h
    · have := List.eq_of_mem_replicate h
      omega
  set blocks := chunks8 padded with hblocks
  have hblocks8 : ∀ b ∈ blocks, b.length = 8 := by
    rw [hblocks]; exact chunks8_all_len8 padded hpadlen
  have hblocksB : ∀ b ∈ blocks, ∀ x ∈ b, x < 256 := by
    rw [hblocks]; exact chunks8_mem_lt padded hpadB
  set enc := cbc_enc key iv blocks with henc
  have henc8 : ∀ c ∈ enc, c.length = 8 := by
    rw [henc]; exact cbc_enc_all_len8 key blocks iv
  have henclen : enc.flatten.length = 8 * enc.length := flatten_all8_length _ henc8
  rw [show encrypt_file_cbc sha256 passphrase iv data = iv ++ enc.flatten from rfl]
  simp only [decrypt_file_cbc]
  rw [← hkey]
  rw [if_neg (by simp only [List.length_append, hiv8, henclen]; omega)]
  rw [List.take_left' hiv8, List.drop_left' hiv8, chunks8_flatten_blocks enc henc8]
  rw [henc, cbc_dec_enc key hk16 blocks iv hiv8 hivB
    (fun b hb => ⟨hblocks8 b hb, hblocksB b hb⟩)]
  rw [hblocks, chunks8_flatten padded hpadlen, hpad]
  exact pkcs7_unpad_pad data

/-- A stand-in for the abstract digest function, used only to instantiate
witnesses: it satisfies the 32-byte output contract of SHA-256. -/
def shaZ : List Nat → List Nat := fun _ => List.replicate 32 0

theorem cbc_roundtrip_witness :
    decrypt_file_cbc shaZ [] (encrypt_file_cbc shaZ [] (List.replicate 8 0) [97, 98, 99])
      = Except.ok [97, 98, 99] :=
  cbc_roundtrip shaZ [] (List.replicate 8 0) [97, 98, 99] (by decide) (by decide)
    (by decide) (by decide) (by decide)

/-- C10: `decrypt_file_cbc` is atomic on failure.  Any failing run performs
no write to the output file (the source opens the output only after the
unpad succeeds); a malformed total length (shorter than 8 bytes or not a
multiple of 8) fails with `CorruptCiphertext`; and an input of exactly 8
bytes — an IV with zero ciphertext blocks, whose padded plaintext is empty —
always fails in `pkcs7_unpad`. -/
theorem decrypt_cbc_atomic (sha256 : List Nat → List Nat) (passphrase data : List Nat) :
    (∀ e, decrypt_file_cbc sha256 passphrase data = Except.error e →
        decrypt_file_cbc_writes sha256 passphrase data = [])
  ∧ ((data.length < 8 ∨ data.length % 8 ≠ 0) →
      decrypt_file_cbc sha256 passphrase data = Except.error "CorruptCiphertext")
  ∧ (data.length = 8 →
      decrypt_file_cbc sha256 passphrase data = Except.error "InvalidLength") := by
  refine ⟨?_, ?_, ?_⟩
  · intro e he
    rw [decrypt_file_cbc_writes, he]
  · intro h
    simp only [decrypt_file_cbc]
    rw [if_pos h]
  · intro h8
    simp only [decrypt_file_cbc]
    rw [if_neg (by omega)]
    have hdrop : data.drop 8 = [] := List.drop_eq_nil_of_le (by omega)
    rw [hdrop, chunks8_nil]
    rfl

theorem decrypt_cbc_atomic_witness :
    decrypt_file_cbc shaZ [] (List.replicate 8 0) = Except.error "InvalidLength"
  ∧ decrypt_file_cbc_writes shaZ [] (List.replicate 8 0) = [] :=
  ⟨(decrypt_cbc_atomic shaZ [] (List.replicate 8 0)).2.2 (by decide),
   (decrypt_cbc_atomic shaZ [] (List.replicate 8 0)).1 "InvalidLength"
     ((decrypt_cbc_atomic shaZ [] (List.replicate 8 0)).2.2 (by decide))⟩

/-- The chunked read/XOR/write loop of `xor_files`: read up to `chunk` input
bytes, stop on empty read, read the same number of key bytes, XOR, continue.
-/
def xorStream (chunk : Nat) (inp key : List Nat) : List Nat :=
  if h : inp.take chunk = [] then []
  else
    List.zipWith (fun x y => x ^^^ y) (inp.take chunk) (key.take (inp.take chunk).length)
      ++ xorStream chunk (inp.drop chunk) (key.drop (inp.take chunk).length)
termination_by inp.length
decreasing_by
  have h1 : inp ≠ [] := by
    intro he
    subst he
    simp at h
  have h2 : 0 < chunk := by
    by_contra hc
    have hc0 : chunk = 0 := by omega
    subst hc0
    simp at h
  simp only [List.length_drop]
  have := List.length_pos.mpr h1
  omega

/-- `xor_files(in, key, out)`: compare the input and key sizes up front; if
the key is shorter, raise (`ValueError` in the source, the `KeyTooShort`
condition) before the output file is even opened; otherwise stream the XOR.
-/
def xor_files (chunk : Nat) (inp key : List Nat) : Except String (List Nat) :=
  if key.length < inp.length then Except.error "KeyTooShort"
  else Except.ok (xorStream chunk inp key)

/-- The writes `xor_files` performs on the output file: in the source the
size check precedes `open(out_path, "wb")`, so a `KeyTooShort` run creates
and writes nothing. -/
def xor_files_writes (chunk : Nat) (inp key : List Nat) : List (List Nat) :=
  match xor_files chunk inp key with
  | Except.ok o => [o]
  | Except.error _ => []

lemma zipWith_take_right (f : Nat → Nat → Nat) (a : List Nat) :
    ∀ (n : Nat) (b : List Nat), a.length ≤ n →
      List.zipWith f a (b.take n) = List.zipWith f a b := by
  induction a with
  | nil => simp
  | cons x xs ih =>
    intro n b hn
    cases n with
    | zero => simp at hn
    | succ m =>
      cases b with
      | nil => simp
      | cons y ys =>
        simp only [List.take_succ_cons, List.zipWith_cons_cons]
        rw [ih m ys (by simpa using hn)]

/-- The chunked loop computes the plain byte-wise XOR of the two streams
(chunk boundaries do not affect the output). -/
lemma xorStream_eq (chunk : Nat) (hc : 0 < chunk) (inp key : List Nat) :
    xorStream chunk inp key = List.zipWith (fun x y => x ^^^ y) inp key := by
  rw [xorStream]
  by_cases h : inp.take chunk = []
  · rw [dif_pos h]
    have hnil : inp = [] := by
      cases inp with
      | nil => rfl
      | cons x xs =>
        exfalso
        cases chunk with
        | zero => omega
        | succ c => simp [List.take_succ_cons] at h
    subst hnil
    simp
  · rw [dif_neg h]
    rw [zipWith_take_right _ _ _ _ (le_refl (inp.take chunk).length)]
    rw [xorStream_eq chunk hc (inp.drop chunk) (key.drop (inp.take chunk).length)]
    rcases le_or_lt chunk inp.length with hle | hlt
    · have hlen : (inp.take chunk).length = chunk := by
        simp only [List.length_take]
        omega
      rw [hlen]
      conv_rhs => rw [← List.take_append_drop chunk (List.zipWith (fun x y => x ^^^ y) inp key)]
      rw [List.take_zipWith, List.drop_zipWith]
      congr 1
      rw [← zipWith_take_right (fun x y => x ^^^ y) (inp.take chunk) chunk key
        (by simp [List.length_take])]
    · have htake : inp.take chunk = inp := List.take_of_length_le (by omega)
      have hdrop : inp.drop chunk = [] := List.drop_eq_nil_of_le (by omega)
      rw [htake, hdrop]
      simp only [List.zipWith_nil_left, List.append_nil]
termination_by inp.length
decreasing_by
  have h1 : inp ≠ [] := by
    intro he
    subst he
    simp at h
  simp only [List.length_drop]
  have := List.length_pos.mpr h1
  omega

lemma getD_zipWith_xor (a : List Nat) :
    ∀ (b : List Nat) (i : Nat), i < a.length → i < b.length →
      (List.zipWith (fun x y => x ^^^ y) a b).getD i 0 = a.getD i 0 ^^^ b.getD i 0 := by
  induction a with
  | nil => intro b i hi _; simp at hi
  | cons x xs ih =>
    intro b i hi hib
    cases b with
    | nil => simp at hib
    | cons y ys =>
      cases i with
      | zero => simp
      | succ j =>
        simp only [List.zipWith_cons_cons, List.getD_cons_succ]
        exact ih ys j (by simpa using hi) (by simpa using hib)

/-- C7: with `len(key) ≥ len(input)` and a positive chunk size, `xor_files`
outputs exactly the byte-wise XOR: same length as the input, `O[i] = I[i]
XOR K[i]`, key bytes beyond the input length never influence the result,
and applying the operation twice with the same key restores the input. -/
theorem xor_files_contract (chunk : Nat) (inp key : List Nat) (hc : 0 < chunk)
    (hlen : inp.length ≤ key.length) :
    xor_files chunk inp key = Except.ok (List.zipWith (fun x y => x ^^^ y) inp key)
  ∧ (List.zipWith (fun x y => x ^^^ y) inp key).length = inp.length
  ∧ (∀ i, i < inp.length →
      (List.zipWith (fun x y => x ^^^ y) inp key).getD i 0
        = inp.getD i 0 ^^^ key.getD i 0)
  ∧ (∀ key2 : List Nat, inp.length ≤ key2.length →
      key.take inp.length = key2.take inp.length →
      xor_files chunk inp key = xor_files chunk inp key2)
  ∧ xor_files chunk (List.zipWith (fun x y => x ^^^ y) inp key) key = Except.ok inp := by
  have hxlen : (List.zipWith (fun x y => x ^^^ y) inp key).length = inp.length := by
    simp only [List.length_zipWith]
    omega
  refine ⟨?_, hxlen, ?_, ?_, ?_⟩
  · rw [xor_files, if_neg (by omega), xorStream_eq chunk hc]
  · intro i hi
    exact getD_zipWith_xor inp key i hi (by omega)
  · intro key2 h2 htake
    rw [xor_files, xor_files, if_neg (by omega), if_neg (by omega),
      xorStream_eq chunk hc, xorStream_eq chunk hc,
      ← zipWith_take_right (fun x y => x ^^^ y) inp inp.length key (le_refl _),
      ← zipWith_take_right (fun x y => x ^^^ y) inp inp.length key2 (le_refl _), htake]
  · rw [xor_files, if_neg (by omega), xorStream_eq chunk hc]
    exact congrArg Except.ok (xor_bytes_cancel inp key hlen)

theorem xor_files_contract_witness :
    xor_files 1 [1, 2] [3, 4, 5]
      = Except.ok (List.zipWith (fun x y => x ^^^ y) [1, 2] [3, 4, 5]) :=
  (xor_files_contract 1 [1, 2] [3, 4, 5] (by decide) (by decide)).1

/-- C8: when the key source is shorter than the input, `xor_files` fails
with `KeyTooShort` from the up-front size comparison, and its write trace is
empty — the output file is never created or partially written. -/
theorem xor_files_key_too_short (chunk : Nat) (inp key : List Nat)
    (h : key.length < inp.length) :
    xor_files chunk inp key = Except.error "KeyTooShort"
  ∧ xor_files_writes chunk inp key = [] := by
  constructor
  · rw [xor_files, if_pos h]
  · rw [xor_files_writes, xor_files, if_pos h]

theorem xor_files_key_too_short_witness :
    xor_files 1 [0] [] = Except.error "KeyTooShort" :=
  (xor_files_key_too_short 1 [0] [] (by decide)).1

/-- The parallel assignment `S[i], S[j] = S[j], S[i]`: both right-hand sides
are read before either slot is written. -/
def swapS (S : List Nat) (i j : Nat) : List Nat :=
  let a := S.getD i 0
  let b := S.getD j 0
  (S.set i b).set j a

/-- The KSA of `rc4_keystream`: `S = 0..255`, `j` starts at 0 and persists
across the 256 iterations; each iteration adds `S[i]` and the key byte at
`i mod len(key)` and swaps. -/
def ksa (key : List Nat) : List Nat :=
  ((List.range 256).foldl
    (fun Sj i =>
      let S := Sj.1
      let j := (Sj.2 + S.getD i 0 + key.getD (i % key.length) 0) % 256
      (swapS S i j, j))
    (List.range 256, 0)).1

/-- The PRGA of `rc4_keystream`, producing `n` keystream bytes from state
`(S, i, j)`; the generator starts it at `i = 0, j = 0`, independent of the
KSA's final `j`. -/
def prga : Nat → List Nat → Nat → Nat → List Nat
  | 0, _, _, _ => []
  | n + 1, S, i, j =>
    let i' := (i + 1) % 256
    let j' := (j + S.getD i' 0) % 256
    let S' := swapS S i' j'
    let K := S'.getD ((S'.getD i' 0 + S'.getD j' 0) % 256) 0
    K :: prga n S' i' j'

/-- The first `n` bytes of the lazy keystream `rc4_keystream(key_bytes)`. -/
def rc4_keystream_take (key : List Nat) (n : Nat) : List Nat :=
  prga n (ksa key) 0 0

/-- `rc4_crypt_file`: reject an empty key (`ValueError` in the source),
then XOR every input byte with the next keystream byte; chunked reading
consumes keystream bytes strictly in order, so the effect on the whole
stream is a single XOR against the first `len(data)` keystream bytes. -/
def rc4_crypt (key data : List Nat) : Except String (List Nat) :=
  if key = [] then Except.error "EmptyKey"
  else Except.ok (List.zipWith (fun x y => x ^^^ y) data (rc4_keystream_take key data.length))

set_option maxRecDepth 40000 in
/-- C4: RC4 as implemented (KSA with persistent `j`, then PRGA from fresh
`i = j = 0`) maps key `"Key"` and plaintext `"Plaintext"` (ASCII) to the
canonical ciphertext `BB F3 16 E8 D9 40 AF 0A D3`. -/
theorem rc4_vector :
    rc4_crypt [75, 101, 121] [80, 108, 97, 105, 110, 116, 101, 120, 116]
      = Except.ok [187, 243, 22, 232, 217, 64, 175, 10, 211] := by
  have h : List.zipWith (fun x y => x ^^^ y) [80, 108, 97, 105, 110, 116, 101, 120, 116]
      (rc4_keystream_take [75, 101, 121] 9)
      = [187, 243, 22, 232, 217, 64, 175, 10, 211] := by decide
  rw [rc4_crypt, if_neg (by decide)]
  exact congrArg Except.ok h

/-- Default multiplier of the source's `LCG.__init__`. -/
def LCG_A : Nat := 1103515245

/-- Default increment of the source's `LCG.__init__`. -/
def LCG_C : Nat := 12345

/-- Default modulus `2^31` of the source's `LCG.__init__`. -/
def LCG_M : Nat := 2 ^ 31

/-- The linear congruential generator state: `x` is reduced `mod m` on
construction, and `X_(n+1) = (a * X_n + c) mod m`. -/
structure LCG where
  x : Nat
  a : Nat
  c : Nat
  m : Nat

/-- `LCG(seed, a, c, m)`: the constructor stores `seed % m`. -/
def LCG.ofSeed (seed a c m : Nat) : LCG := ⟨seed % m, a, c, m⟩

/-- `next_u31`: advance the state, return the new state value. -/
def LCG.next_u31 (g : LCG) : Nat × LCG :=
  let x := (g.a * g.x + g.c) % g.m
  (x, ⟨x, g.a, g.c, g.m⟩)

/-- `next_byte`: advance, then keep the low 8 bits (`& 0xFF`). -/
def LCG.next_byte (g : LCG) : Nat × LCG :=
  let p := g.next_u31
  (p.1 % 256, p.2)

/-- `n` successive bytes from a generator (the `bytes(gen.next_byte() for _
in range(size))` of `gen_key_lcg`). -/
def lcgBytes (g : LCG) : Nat → List Nat
  | 0 => []
  | n + 1 =>
    let p := g.next_byte
    p.1 :: lcgBytes p.2 n

/-- `gen_key_lcg(out, size, seed)`: the key bytes written, using the
constructor defaults. -/
def gen_key_lcg (size seed : Nat) : List Nat :=
  lcgBytes (LCG.ofSeed seed LCG_A LCG_C LCG_M) size

/-- The mathematical iterate `x_j` of the recurrence from start state `x`. -/
def lcgIter (a c m x : Nat) : Nat → Nat
  | 0 => x
  | j + 1 => (a * lcgIter a c m x j + c) % m

lemma lcgIter_shift (a c m x : Nat) :
    ∀ j, lcgIter a c m ((a * x + c) % m) j = lcgIter a c m x (j + 1) := by
  intro j
  induction j with
  | zero => rfl
  | succ j ihj =>
    show (a * lcgIter a c m ((a * x + c) % m) j + c) % m = _
    rw [ihj]
    rfl

lemma lcgBytes_spec (a c m : Nat) :
    ∀ (n x : Nat),
      (lcgBytes ⟨x, a, c, m⟩ n).length = n
    ∧ ∀ i, i < n → (lcgBytes ⟨x, a, c, m⟩ n).getD i 0 = lcgIter a c m x (i + 1) % 256 := by
  intro n
  induction n with
  | zero => exact fun x => ⟨rfl, fun i hi => absurd hi (by omega)⟩
  | succ n ih =>
    intro x
    constructor
    · simp only [lcgBytes, LCG.next_byte, LCG.next_u31, List.length_cons]
      rw [(ih _).1]
    · intro i hi
      cases i with
      | zero =>
        simp [lcgBytes, LCG.next_byte, LCG.next_u31, lcgIter]
      | succ j =>
        simp only [lcgBytes, LCG.next_byte, LCG.next_u31, List.getD_cons_succ]
        rw [(ih ((a * x + c) % m)).2 j (by omega), lcgIter_shift]

/-- C9: the LCG byte generator is the exact deterministic function of
`(seed, a, c, m)`: starting from `x0 = seed mod m`, the state advances by
`x -> (a*x + c) mod m` before each emission, byte `i` is the low 8 bits of
the `(i+1)`-st iterate, exactly `n` bytes are produced for a request of
`n`, and two generators built from identical parameters produce identical
sequences at every requested length. -/
theorem lcg_spec (seed a c m n : Nat) (hm : 0 < m) :
    (lcgBytes (LCG.ofSeed seed a c m) n).length = n
  ∧ (∀ i, i < n →
      (lcgBytes (LCG.ofSeed seed a c m) n).getD i 0
        = lcgIter a c m (seed % m) (i + 1) % 256)
  ∧ (∀ g1 g2 : LCG, g1 = LCG.ofSeed seed a c m → g2 = LCG.ofSeed seed a c m →
      ∀ k, lcgBytes g1 k = lcgBytes g2 k)
  ∧ gen_key_lcg n seed = lcgBytes (LCG.ofSeed seed LCG_A LCG_C LCG_M) n := by
  refine ⟨(lcgBytes_spec a c m n (seed % m)).1, (lcgBytes_spec a c m n (seed % m)).2,
    ?_, rfl⟩
  intro g1 g2 h1 h2 k
  rw [h1, h2]

theorem lcg_spec_witness :
    0 < LCG_M ∧ (lcgBytes (LCG.ofSeed 123456789 LCG_A LCG_C LCG_M) 5).length = 5 :=
  ⟨by decide, (lcg_spec 123456789 LCG_A LCG_C LCG_M 5 (by decide)).1⟩

end Ucheba
